import Mathlib

/-!
Verification of the daily-word selection core of a two-pool (English/Hebrew)
"word of the day" service (`main.py`, `loader.py`).

The storage is a SQLite database with, per pool, a `words` table
(`id INTEGER PRIMARY KEY AUTOINCREMENT, word TEXT NOT NULL UNIQUE,
used INTEGER NOT NULL DEFAULT 0, used_at TEXT`) and a `daily_words` table
(`date TEXT PRIMARY KEY, word_id INTEGER NOT NULL`).  We embed one pool's
state as a list of word rows (in insertion order, as SQLite stores them),
a list of (date, word_id) ledger rows, and the AUTOINCREMENT counter.
`datetime.utcnow().date().isoformat()` is modelled as an explicit `today`
string argument, and `ORDER BY RANDOM() LIMIT 1` as an explicit choice
index `k` (the row picked is the `k % n`-th available one).
-/

namespace DailyWord

/-- Python `str.strip()` whitespace test, restricted to the ASCII whitespace
characters (space, tab, newline, carriage return, vertical tab, form feed)
that can occur in the word files and query strings. -/
def isPySpace (c : Char) : Bool :=
  c = ' ' || c = '\t' || c = '\n' || c = '\r' || c = Char.ofNat 11 || c = Char.ofNat 12

/-- Python `str.strip()`: drop leading and trailing whitespace. -/
def pyStripList (l : List Char) : List Char :=
  ((l.dropWhile isPySpace).reverse.dropWhile isPySpace).reverse

/-- Python `str.strip()` on strings. -/
def pyStrip (s : String) : String :=
  ⟨pyStripList s.data⟩

/-- Python `str.lower()` on one character, for the ASCII range the English
word list uses. -/
def pyLowerChar (c : Char) : Char :=
  if 'A' ≤ c ∧ c ≤ 'Z' then Char.ofNat (c.toNat + 32) else c

/-- Python `str.lower()`. -/
def pyLower (s : String) : String :=
  ⟨s.data.map pyLowerChar⟩

/-- One row of a `words` / `words_hebrew` table (the `WordOut` shape:
`{id, word, used, used_at}`; `used INTEGER` 0/1 is modelled as `Bool`). -/
structure Word where
  id : Nat
  word : String
  used : Bool
  used_at : Option String
deriving Repr, DecidableEq

/-- The state of one pool: the `words` table rows in storage order, the
`daily_words` ledger rows, and the AUTOINCREMENT counter for `id`. -/
structure PoolState where
  words : List Word
  daily : List (String × Nat)
  nextId : Nat
deriving Repr, DecidableEq

/-- Model of `init_db`: creates empty tables; AUTOINCREMENT ids start at 1. -/
def initState : PoolState :=
  { words := [], daily := [], nextId := 1 }

/-- Number of available (`used = 0`) words. -/
def countAvail (s : PoolState) : Nat :=
  (s.words.filter (fun w => w.used == false)).length

/-- The row update performed by
`UPDATE words SET used = 1, used_at = ? WHERE id = ?`. -/
def markUsed (wid : Nat) (today : String) (x : Word) : Word :=
  if x.id = wid then { x with used := true, used_at := some today } else x

/-- Model of `pick_and_mark_unused` (main.py, lines 74-99):
atomically pick a random unused word and mark it used with today's date.
`SELECT ... WHERE used = 0 ORDER BY RANDOM() LIMIT 1` is modelled by taking
the `k % n`-th of the available rows; if none, the transaction is rolled
back and HTTP 404 is raised (modelled as `.error`). On success the updated
`WordOut` and the committed state are returned. -/
def pickAndMarkUnused (s : PoolState) (k : Nat) (today : String) :
    Except String (Word × PoolState) :=
  match s.words.filter (fun w => w.used == false) with
  | [] => .error "No unused words available"
  | a :: rest =>
      let chosen := (a :: rest).getD (k % (a :: rest).length) a
      .ok (⟨chosen.id, chosen.word, true, some today⟩,
           { s with words := s.words.map (markUsed chosen.id today) })

/-- Model of `pick_and_mark_unused_hebrew` (main.py, lines 102-121): identical logic
on the Hebrew pool's tables. -/
def pickAndMarkUnusedHebrew (s : PoolState) (k : Nat) (today : String) :
    Except String (Word × PoolState) :=
  match s.words.filter (fun w => w.used == false) with
  | [] => .error "No unused Hebrew words available"
  | a :: rest =>
      let chosen := (a :: rest).getD (k % (a :: rest).length) a
      .ok (⟨chosen.id, chosen.word, true, some today⟩,
           { s with words := s.words.map (markUsed chosen.id today) })

/-- Model of `get_daily_word_for_date` (main.py, lines 155-175): the
`daily_words ⋈ words` join row for the given date, if any. -/
def getDailyWordForDate (s : PoolState) (date_str : String) : Option Word :=
  match s.daily.find? (fun p => p.1 == date_str) with
  | none => none
  | some p => s.words.find? (fun w => w.id == p.2)

/-- Model of `get_daily_word_hebrew_for_date` (main.py, lines 177-194). -/
def getDailyWordHebrewForDate (s : PoolState) (date_str : String) : Option Word :=
  match s.daily.find? (fun p => p.1 == date_str) with
  | none => none
  | some p => s.words.find? (fun w => w.id == p.2)

/-- Model of `save_daily_word` (main.py, lines 197-207):
`INSERT OR REPLACE INTO daily_words (date, word_id)` — any existing row with
this date key is replaced.  The source passes a `WordOut` and stores
`word.id`; we take the id directly. -/
def saveDailyWord (s : PoolState) (date_str : String) (wid : Nat) : PoolState :=
  { s with daily := (date_str, wid) :: s.daily.filter (fun p => ¬ p.1 == date_str) }

/-- Model of `save_daily_word_hebrew` (main.py, lines 209-218). -/
def saveDailyWordHebrew (s : PoolState) (date_str : String) (wid : Nat) : PoolState :=
  { s with daily := (date_str, wid) :: s.daily.filter (fun p => ¬ p.1 == date_str) }

/-- Model of `word_exists_english` (main.py, lines 220-227): the query word is
stripped and lowercased, then compared exactly against stored words. -/
def wordExistsEnglish (s : PoolState) (word : String) : Bool :=
  let w := pyLower (pyStrip word)
  s.words.any (fun x => x.word == w)

/-- Model of `word_exists_hebrew` (main.py, lines 229-236): the query word is
stripped (no lowercasing), then compared exactly against stored words. -/
def wordExistsHebrew (s : PoolState) (word : String) : Bool :=
  let w := pyStrip word
  s.words.any (fun x => x.word == w)

/-- Model of `choose_daily_word_job` (main.py, lines 247-260): if today's assignment
exists, do nothing; otherwise pick-and-mark and save.  All exceptions are
caught and logged, so the job always returns and on failure leaves the
state as the rolled-back transaction left it (unchanged). -/
def chooseDailyWordJob (s : PoolState) (k : Nat) (today : String) : PoolState :=
  match getDailyWordForDate s today with
  | some _ => s
  | none =>
      match pickAndMarkUnused s k today with
      | .error _ => s
      | .ok (chosen, s1) => saveDailyWord s1 today chosen.id

/-- Model of `choose_daily_word_hebrew_job` (main.py, lines 262-275). -/
def chooseDailyWordHebrewJob (s : PoolState) (k : Nat) (today : String) : PoolState :=
  match getDailyWordHebrewForDate s today with
  | some _ => s
  | none =>
      match pickAndMarkUnusedHebrew s k today with
      | .error _ => s
      | .ok (chosen, s1) => saveDailyWordHebrew s1 today chosen.id

/-- Model of `api_force_today_choice` (main.py, lines 390-398): return the existing
assignment for today if present, else pick-and-mark, save, and return the
chosen word (HTTP 404 from the pick propagates). -/
def apiForceTodayChoice (s : PoolState) (k : Nat) (today : String) :
    Except String (Word × PoolState) :=
  match getDailyWordForDate s today with
  | some existing => .ok (existing, s)
  | none =>
      match pickAndMarkUnused s k today with
      | .error e => .error e
      | .ok (chosen, s1) => .ok (chosen, saveDailyWord s1 today chosen.id)

/-- Model of `api_force_today_choice_hebrew` (main.py, lines 400-408). -/
def apiForceTodayChoiceHebrew (s : PoolState) (k : Nat) (today : String) :
    Except String (Word × PoolState) :=
  match getDailyWordHebrewForDate s today with
  | some existing => .ok (existing, s)
  | none =>
      match pickAndMarkUnusedHebrew s k today with
      | .error e => .error e
      | .ok (chosen, s1) => .ok (chosen, saveDailyWordHebrew s1 today chosen.id)

/-- The `word` UNIQUE-constraint check: does the table already hold this text? -/
def hasWord (s : PoolState) (w : String) : Bool :=
  s.words.any (fun x => x.word == w)

/-- Model of `INSERT OR IGNORE INTO words (word) VALUES (?)`: insert a fresh row with
the next AUTOINCREMENT id, `used = 0`, `used_at = NULL`, unless a row with
the same (UNIQUE) word text already exists. -/
def insertIgnoreWord (s : PoolState) (w : String) : PoolState :=
  if hasWord s w then s
  else { s with words := s.words ++ [⟨s.nextId, w, false, none⟩],
                nextId := s.nextId + 1 }

/-- The per-pool line loop shared by the import routines: normalize each
line, skip empty results, `INSERT OR IGNORE` the rest. -/
def importLinesWith (norm : String → String) (s : PoolState) : List String → PoolState
  | [] => s
  | line :: rest =>
      importLinesWith norm
        (if norm line = "" then s else insertIgnoreWord s (norm line)) rest

/-- Insert (`INSERT OR IGNORE`) each word of a prepared list in order (the loop body
of loader.py's `seed`). -/
def insertAll (s : PoolState) : List String → PoolState
  | [] => s
  | w :: ws => insertAll (insertIgnoreWord s w) ws

/-- Model of `import_words_from_file` (main.py, lines 367-388): each line is
`strip().lower()`-ed; empty results are skipped, the rest inserted with
`INSERT OR IGNORE`. The file is modelled as its list of lines. -/
def importWordsFromFile (s : PoolState) (lines : List String) : PoolState :=
  importLinesWith (fun l => pyLower (pyStrip l)) s lines

/-- Model of `import_hebrew_words` (main.py, lines 351-364): each line is stripped
(not lowercased); empty results skipped, the rest `INSERT OR IGNORE`-d. -/
def importHebrewWords (s : PoolState) (lines : List String) : PoolState :=
  importLinesWith pyStrip s lines

/-- Model of `seed` (loader.py, lines 13-30): collect `w.strip().lower()` for every
line whose `w.strip()` is non-empty, then `INSERT OR IGNORE` each. -/
def seed (s : PoolState) (lines : List String) : PoolState :=
  insertAll s ((lines.filter (fun l => !(pyStrip l == ""))).map (fun l => pyLower (pyStrip l)))

/-- The `/stats` response: total, used, unused counts and the last-10
(date, word) history. -/
structure StatsOut where
  total : Nat
  used : Nat
  unused : Nat
  last10 : List (String × String)
deriving Repr, DecidableEq

/-- The `daily_words d JOIN words w ON w.id = d.word_id` rows as
(date, word text) pairs, in ledger order. -/
def joinHistory (s : PoolState) : List (String × String) :=
  s.daily.filterMap (fun p =>
    (s.words.find? (fun w => w.id == p.2)).map (fun w => (p.1, w.word)))

/-- SQLite's default TEXT collation: bytewise (`memcmp`) comparison, here
on the character sequences (codepoint order; equal to byte order on the
ASCII dates the ledger stores).  `strLeB a b` means `a` collates no later
than `b`. -/
def strLeB : List Char → List Char → Bool
  | [], _ => true
  | _ :: _, [] => false
  | a :: as, b :: bs =>
      if a.toNat < b.toNat then true
      else if b.toNat < a.toNat then false
      else strLeB as bs

/-- SQLite TEXT comparison on strings. -/
def dateLeB (a b : String) : Bool :=
  strLeB a.data b.data

/-- Model of `ORDER BY d.date DESC` on the join: sort so that each row's date
collates no earlier than the next row's. -/
def sortByDateDesc (l : List (String × String)) : List (String × String) :=
  l.insertionSort (fun a b => dateLeB b.1 a.1 = true)

/-- Model of `api_stats` (main.py, lines 320-349): `COUNT(*)`, `SUM(used)` (NULL on an
empty table, turned into 0 by `or 0`), `unused = total - used`, and the join
ordered by date descending, limited to 10 rows. -/
def apiStats (s : PoolState) : StatsOut :=
  let total := s.words.length
  let used := (s.words.map (fun w => if w.used then 1 else 0)).sum
  { total := total
    used := used
    unused := total - used
    last10 := (sortByDateDesc (joinHistory s)).take 10 }

/-- The mutating entry points on one pool, for stating invariants over
arbitrary operation sequences.  `pick` is the selection engine itself,
`saveDaily` the ledger write, `job` the scheduler's daily job, `force` the
explicit force-assignment endpoint, `importF` the main.py bulk import and
`seedF` the loader.py seeding script.  The read-only endpoints
(`/random`, `/today`, existence checks, `/stats`) run single SELECTs and
change no state. -/
inductive Op where
  | pick (k : Nat) (today : String)
  | saveDaily (d : String) (wid : Nat)
  | job (k : Nat) (today : String)
  | force (k : Nat) (today : String)
  | importF (lines : List String)
  | seedF (lines : List String)
deriving Repr, DecidableEq

/-- Effect of one English-pool operation on the pool state (a failed pick or
force raises after rollback, leaving the state unchanged). -/
def applyOp (o : Op) (s : PoolState) : PoolState :=
  match o with
  | .pick k d =>
      match pickAndMarkUnused s k d with
      | .error _ => s
      | .ok (_, s1) => s1
  | .saveDaily d wid => saveDailyWord s d wid
  | .job k d => chooseDailyWordJob s k d
  | .force k d =>
      match apiForceTodayChoice s k d with
      | .error _ => s
      | .ok (_, s1) => s1
  | .importF ls => importWordsFromFile s ls
  | .seedF ls => seed s ls

/-- Effect of a sequence of English-pool operations, in order. -/
def applyOps : List Op → PoolState → PoolState
  | [], s => s
  | o :: ops, s => applyOps ops (applyOp o s)

/-- Database well-formedness, guaranteed by the schema: `id` is a PRIMARY KEY
(distinct, and AUTOINCREMENT keeps every id below the counter) and `word`
is UNIQUE. -/
def WF (s : PoolState) : Prop :=
  (s.words.map Word.id).Nodup ∧
  (∀ w ∈ s.words, w.id < s.nextId) ∧
  (s.words.map Word.word).Nodup

/-- The ledger-uniqueness invariant: `date` is the `daily_words` PRIMARY KEY,
so no two ledger rows share a date. -/
def LedgerUnique (s : PoolState) : Prop :=
  (s.daily.map Prod.fst).Nodup

/-- Operations that never invoke the selection engine (`pick_and_mark_*`):
the ledger write and the two import scripts. -/
def engineFree : Op → Bool
  | .pick _ _ => false
  | .job _ _ => false
  | .force _ _ => false
  | .saveDaily _ _ => true
  | .importF _ => true
  | .seedF _ => true

/-- Successive calls to the selection engine, collecting the returned words
(`none` as soon as one call raises EmptyPool). -/
def runPicks (s : PoolState) : List (Nat × String) → Option (List Word × PoolState)
  | [] => some ([], s)
  | p :: rest =>
      match pickAndMarkUnused s p.1 p.2 with
      | .error _ => none
      | .ok (w, s1) =>
          match runPicks s1 rest with
          | none => none
          | some (ws, s') => some (w :: ws, s')

/-- The mutating entry points on the Hebrew pool (the Hebrew clones of the
English routines; loader.py has no Hebrew variant). -/
inductive OpH where
  | pick (k : Nat) (today : String)
  | saveDaily (d : String) (wid : Nat)
  | job (k : Nat) (today : String)
  | force (k : Nat) (today : String)
  | importH (lines : List String)
deriving Repr, DecidableEq

/-- Effect of one Hebrew-pool operation on the Hebrew pool state. -/
def applyOpH (o : OpH) (s : PoolState) : PoolState :=
  match o with
  | .pick k d =>
      match pickAndMarkUnusedHebrew s k d with
      | .error _ => s
      | .ok (_, s1) => s1
  | .saveDaily d wid => saveDailyWordHebrew s d wid
  | .job k d => chooseDailyWordHebrewJob s k d
  | .force k d =>
      match apiForceTodayChoiceHebrew s k d with
      | .error _ => s
      | .ok (_, s1) => s1
  | .importH ls => importHebrewWords s ls

/-- The whole database: the two pools' table pairs
(`words`/`daily_words` and `words_hebrew`/`daily_words_hebrew`). -/
structure GlobalState where
  english : PoolState
  hebrew : PoolState
deriving Repr, DecidableEq

/-- A mutating operation on the database, tagged by the pool whose tables
its SQL statements touch. -/
inductive GOp where
  | eng : Op → GOp
  | heb : OpH → GOp
deriving Repr, DecidableEq

/-- English-pool SQL touches only `words`/`daily_words`; Hebrew-pool SQL
touches only `words_hebrew`/`daily_words_hebrew`. -/
def applyGOp (o : GOp) (g : GlobalState) : GlobalState :=
  match o with
  | .eng o => { g with english := applyOp o g.english }
  | .heb o => { g with hebrew := applyOpH o g.hebrew }

/-- Effect of a sequence of database operations, in order. -/
def applyGOps : List GOp → GlobalState → GlobalState
  | [], g => g
  | o :: ops, g => applyGOps ops (applyGOp o g)

/-- Is this a query/update against the English pool's tables? -/
def isEnglishOp : GOp → Bool
  | .eng _ => true
  | .heb _ => false

/-! Small concrete database states, used to exercise the theorems below on
closed inputs (the scenarios of the spec's Testable-Properties section). -/

/-- A Hebrew pool holding the single (stripped, as imported) word "שלום". -/
def hebrewDemoPool : PoolState :=
  { words := [⟨1, "שלום", false, none⟩], daily := [], nextId := 2 }

/-- An English pool holding the single stored word "hello". -/
def englishDemoPool : PoolState :=
  { words := [⟨1, "hello", false, none⟩], daily := [], nextId := 2 }

/-- An English pool with one available word "zeta" and no assignment yet. -/
def zetaPool : PoolState :=
  { words := [⟨1, "zeta", false, none⟩], daily := [], nextId := 2 }

/-- The word "zeta" as returned by the selection engine on 2024-01-01. -/
def zetaPicked : Word := ⟨1, "zeta", true, some "2024-01-01"⟩

/-- State of `zetaPool` after `ensure_assignment` ran for 2024-01-01. -/
def zetaPoolAfter : PoolState :=
  { words := [zetaPicked], daily := [("2024-01-01", 1)], nextId := 2 }

/-- The spec's scenario pool: English = {"alpha", "beta"}. -/
def alphaBetaPool : PoolState :=
  { words := [⟨1, "alpha", false, none⟩, ⟨2, "beta", false, none⟩],
    daily := [], nextId := 3 }

/-- The row "alpha" of `alphaBetaPool`. -/
def alphaWord : Word := ⟨1, "alpha", false, none⟩

/-- A ledger write followed by a bulk import (both engine-free). -/
def demoOps : List Op := [Op.saveDaily "2024-01-01" 1, Op.importF ["gamma"]]

/-- A two-pool database built from the demo pools. -/
def demoGlobal : GlobalState :=
  { english := alphaBetaPool, hebrew := hebrewDemoPool }

/-- An English pool with eleven words and eleven ledger rows, enough for the
`/stats` LIMIT 10 to drop the oldest assignment. -/
def statsDemoPool : PoolState :=
  { words := [⟨1, "w01", true, some "2024-01-01"⟩, ⟨2, "w02", true, some "2024-01-02"⟩,
              ⟨3, "w03", true, some "2024-01-03"⟩, ⟨4, "w04", true, some "2024-01-04"⟩,
              ⟨5, "w05", true, some "2024-01-05"⟩, ⟨6, "w06", true, some "2024-01-06"⟩,
              ⟨7, "w07", true, some "2024-01-07"⟩, ⟨8, "w08", true, some "2024-01-08"⟩,
              ⟨9, "w09", true, some "2024-01-09"⟩, ⟨10, "w10", true, some "2024-01-10"⟩,
              ⟨11, "w11", true, some "2024-01-11"⟩],
    daily := [("2024-01-01", 1), ("2024-01-02", 2), ("2024-01-03", 3),
              ("2024-01-04", 4), ("2024-01-05", 5), ("2024-01-06", 6),
              ("2024-01-07", 7), ("2024-01-08", 8), ("2024-01-09", 9),
              ("2024-01-10", 10), ("2024-01-11", 11)],
    nextId := 12 }

instance (s : PoolState) : Decidable (WF s) := by
  unfold WF; infer_instance

instance (s : PoolState) : Decidable (LedgerUnique s) := by
  unfold LedgerUnique; infer_instance

/-! ### Basic lemmas about the selection engine -/

lemma getD_mem_cons {α : Type} (l : List α) (n : Nat) (d : α) :
    l.getD n d ∈ d :: l := by
  induction l generalizing n with
  | nil => simp [List.getD]
  | cons b t ih =>
      cases n with
      | zero => simp [List.getD]
      | succ m =>
          rw [List.getD_cons_succ]
          rcases List.mem_cons.mp (ih m) with h | h
          · rw [h]; exact List.mem_cons_self _ _
          · exact List.mem_cons_of_mem _ (List.mem_cons_of_mem _ h)

lemma markUsed_id (wid : Nat) (d : String) (x : Word) :
    (markUsed wid d x).id = x.id := by
  unfold markUsed; split <;> rfl

lemma markUsed_word (wid : Nat) (d : String) (x : Word) :
    (markUsed wid d x).word = x.word := by
  unfold markUsed; split <;> rfl

lemma markUsed_of_ne {wid : Nat} {d : String} {x : Word} (h : ¬ x.id = wid) :
    markUsed wid d x = x := by
  unfold markUsed; simp [h]

lemma markUsed_of_eq {wid : Nat} {d : String} {x : Word} (h : x.id = wid) :
    markUsed wid d x = ⟨x.id, x.word, true, some d⟩ := by
  unfold markUsed; simp [h]

lemma mem_id_inj {l : List Word} (hnd : (l.map Word.id).Nodup) {x y : Word}
    (hx : x ∈ l) (hy : y ∈ l) (h : x.id = y.id) : x = y :=
  List.inj_on_of_nodup_map hnd hx hy h

lemma countAvail_eq_zero_iff (s : PoolState) :
    countAvail s = 0 ↔ s.words.filter (fun w => w.used == false) = [] := by
  unfold countAvail
  exact List.length_eq_zero

/-- Success shape of `pick_and_mark_unused`: some available row `c` is
chosen, returned marked, and the state maps `markUsed` over the table. -/
lemma pick_ok_of_avail {s : PoolState} (k : Nat) (today : String)
    (h : ¬ s.words.filter (fun w => w.used == false) = []) :
    ∃ c ∈ s.words, c.used = false ∧
      pickAndMarkUnused s k today =
        .ok (⟨c.id, c.word, true, some today⟩,
             { s with words := s.words.map (markUsed c.id today) }) := by
  rcases hfl : s.words.filter (fun w => w.used == false) with _ | ⟨a, rest⟩
  · exact absurd hfl h
  · have hmem : (a :: rest).getD (k % (a :: rest).length) a ∈
        s.words.filter (fun w => w.used == false) := by
      rw [hfl]
      have h2 := getD_mem_cons (a :: rest) (k % (a :: rest).length) a
      rcases List.mem_cons.mp h2 with h3 | h3
      · rw [h3]; exact List.mem_cons_self _ _
      · exact h3
    have hmem' := List.mem_filter.mp hmem
    refine ⟨(a :: rest).getD (k % (a :: rest).length) a, hmem'.1, by simpa using hmem'.2, ?_⟩
    unfold pickAndMarkUnused
    rw [hfl]

lemma pick_error_iff (s : PoolState) (k : Nat) (d : String) :
    (∃ e, pickAndMarkUnused s k d = .error e) ↔ countAvail s = 0 := by
  constructor
  · rintro ⟨e, he⟩
    by_contra hne
    have hfl : ¬ s.words.filter (fun w => w.used == false) = [] := by
      intro h0
      exact hne ((countAvail_eq_zero_iff s).mpr h0)
    obtain ⟨c, -, -, hok⟩ := pick_ok_of_avail k d hfl
    rw [hok] at he
    exact Except.noConfusion he
  · intro h0
    have hfl := (countAvail_eq_zero_iff s).mp h0
    refine ⟨"No unused words available", ?_⟩
    unfold pickAndMarkUnused
    rw [hfl]

/-- On a non-empty available set the Hebrew pick agrees with the English one
(the two source functions differ only in table name and error text). -/
lemma pickHebrew_eq_of_avail {s : PoolState} (k : Nat) (d : String)
    (h : ¬ s.words.filter (fun w => w.used == false) = []) :
    pickAndMarkUnusedHebrew s k d = pickAndMarkUnused s k d := by
  rcases hfl : s.words.filter (fun w => w.used == false) with _ | ⟨a, rest⟩
  · exact absurd hfl h
  · unfold pickAndMarkUnused pickAndMarkUnusedHebrew
    rw [hfl]

lemma map_eq_self_of_forall {l : List Word} {f : Word → Word}
    (h : ∀ x ∈ l, f x = x) : l.map f = l := by
  induction l with
  | nil => rfl
  | cons a t ih =>
      simp only [List.map_cons, h a (List.mem_cons_self _ _)]
      rw [ih fun x hx => h x (List.mem_cons_of_mem _ hx)]

lemma map_comp_eq {β : Type} {l : List Word} (f : Word → Word) (g : Word → β)
    (h : ∀ x, g (f x) = g x) : (l.map f).map g = l.map g := by
  induction l with
  | nil => rfl
  | cons a t ih => simp only [List.map_cons, h a, ih]

/-- A used row is untouched by the `UPDATE` of a pick that chose the
available row `c` (distinct primary keys). -/
lemma markUsed_fixed_of_used {l : List Word} {c : Word} (d : String)
    (hnd : (l.map Word.id).Nodup) (hcmem : c ∈ l) (hc : c.used = false)
    {x : Word} (hx : x ∈ l) (hxu : x.used = true) :
    markUsed c.id d x = x := by
  apply markUsed_of_ne
  intro h
  have hxc : x = c := mem_id_inj hnd hx hcmem h
  rw [hxc, hc] at hxu
  exact Bool.noConfusion hxu

/-- Marking the chosen available row used removes exactly one row from the
available set. -/
lemma countAvail_map_markUsed {l : List Word} {c : Word} (d : String)
    (hnd : (l.map Word.id).Nodup) (hmem : c ∈ l) (hc : c.used = false) :
    ((l.map (markUsed c.id d)).filter (fun w => w.used == false)).length + 1 =
      (l.filter (fun w => w.used == false)).length := by
  induction l with
  | nil => cases hmem
  | cons a t ih =>
      have hnd' : ((a :: t).map Word.id).Nodup := hnd
      rw [List.map_cons, List.nodup_cons] at hnd'
      by_cases hid : a.id = c.id
      · have hac : a = c := by
          rcases List.mem_cons.mp hmem with h | h
          · exact h.symm
          · exfalso
            have hidt : c.id ∈ t.map Word.id := List.mem_map_of_mem _ h
            rw [← hid] at hidt
            exact hnd'.1 hidt
        have htmap : t.map (markUsed c.id d) = t := by
          apply map_eq_self_of_forall
          intro x hx
          apply markUsed_of_ne
          intro hxe
          apply hnd'.1
          rw [hac, ← hxe]
          exact List.mem_map_of_mem _ hx
        simp only [List.map_cons, htmap, markUsed_of_eq hid, List.filter_cons]
        rw [← hac] at hc
        simp [hc]
      · have hct : c ∈ t := by
          rcases List.mem_cons.mp hmem with h | h
          · exfalso; apply hid; rw [h]
          · exact h
        have hlen := ih hnd'.2 hct
        simp only [List.map_cons, markUsed_of_ne hid]
        rw [List.filter_cons, List.filter_cons]
        by_cases ha : (a.used == false) = true
        · rw [if_pos ha, if_pos ha]
          simp only [List.length_cons]
          omega
        · rw [if_neg ha, if_neg ha]
          exact hlen

/-- An available row of the post-pick table never carries the chosen id. -/
lemma avail_map_ne {l : List Word} {c : Word} {d : String} {x : Word}
    (hx : x ∈ l.map (markUsed c.id d)) (hxu : x.used = false) :
    ¬ x.id = c.id := by
  obtain ⟨y, hy, hxy⟩ := List.mem_map.mp hx
  by_cases h : y.id = c.id
  · rw [markUsed_of_eq h] at hxy
    rw [← hxy] at hxu
    exact absurd hxu Bool.noConfusion
  · rw [markUsed_of_ne h] at hxy
    rw [← hxy]
    exact h

/-- Every available row of the post-pick table was an available row of the
pre-pick table. -/
lemma avail_origin_map {l : List Word} {c : Word} {d : String} {x : Word}
    (hx : x ∈ l.map (markUsed c.id d)) (hxu : x.used = false) :
    x ∈ l := by
  obtain ⟨y, hy, hxy⟩ := List.mem_map.mp hx
  by_cases h : y.id = c.id
  · rw [markUsed_of_eq h] at hxy
    rw [← hxy] at hxu
    exact absurd hxu Bool.noConfusion
  · rw [markUsed_of_ne h] at hxy
    rw [← hxy]
    exact hy

/-- Finding (`find?`) by primary key on a nodup-key table finds the member itself. -/
lemma find_id_of_mem {l : List Word} (hnd : (l.map Word.id).Nodup) {w : Word}
    (hw : w ∈ l) : l.find? (fun x => x.id == w.id) = some w := by
  induction l with
  | nil => cases hw
  | cons a t ih =>
      have hnd' : ((a :: t).map Word.id).Nodup := hnd
      rw [List.map_cons, List.nodup_cons] at hnd'
      by_cases h : a.id = w.id
      · have haw : a = w := mem_id_inj hnd (List.mem_cons_self _ _) hw h
        rw [List.find?_cons_of_pos _ (by simp [h])]
        rw [haw]
      · rw [List.find?_cons_of_neg _ (by simp [h])]
        have hwt : w ∈ t := by
          rcases List.mem_cons.mp hw with h2 | h2
          · exfalso; apply h; rw [h2]
          · exact h2
        exact ih hnd'.2 hwt

/-- Inversion of a successful pick: the success shape is forced. -/
lemma pick_ok_inv {s : PoolState} {k : Nat} {today : String} {w : Word}
    {s' : PoolState} (h : pickAndMarkUnused s k today = .ok (w, s')) :
    ∃ c ∈ s.words, c.used = false ∧ w = ⟨c.id, c.word, true, some today⟩ ∧
      s' = { s with words := s.words.map (markUsed c.id today) } := by
  have hfl : ¬ s.words.filter (fun x => x.used == false) = [] := by
    intro h0
    unfold pickAndMarkUnused at h
    rw [h0] at h
    exact Except.noConfusion h
  obtain ⟨c, hc1, hc2, hok⟩ := pick_ok_of_avail k today hfl
  rw [hok] at h
  have h2 := Except.ok.inj h
  exact ⟨c, hc1, hc2, (congrArg Prod.fst h2).symm, (congrArg Prod.snd h2).symm⟩

/-- The schema invariant is preserved by a successful pick. -/
lemma WF_pick {s : PoolState} {k : Nat} {d : String} {w : Word} {s' : PoolState}
    (hWF : WF s) (h : pickAndMarkUnused s k d = .ok (w, s')) : WF s' := by
  obtain ⟨c, hc, hcu, hw, hs'⟩ := pick_ok_inv h
  obtain ⟨h1, h2, h3⟩ := hWF
  subst hs'
  refine ⟨?_, ?_, ?_⟩
  · rw [map_comp_eq _ _ (markUsed_id c.id d)]
    exact h1
  · intro x hx
    obtain ⟨y, hy, hxy⟩ := List.mem_map.mp hx
    rw [← hxy, markUsed_id]
    exact h2 y hy
  · rw [map_comp_eq _ _ (markUsed_word c.id d)]
    exact h3

/-- A successful pick decrements the available count by exactly one. -/
lemma countAvail_pick {s : PoolState} {k : Nat} {d : String} {w : Word}
    {s' : PoolState} (hWF : WF s) (h : pickAndMarkUnused s k d = .ok (w, s')) :
    countAvail s' + 1 = countAvail s := by
  obtain ⟨c, hc, hcu, hw, hs'⟩ := pick_ok_inv h
  subst hs'
  exact countAvail_map_markUsed d hWF.1 hc hcu

/-! ### Lemmas about `INSERT OR IGNORE` and the import loops -/

lemma hasWord_insertIgnoreWord_self (s : PoolState) (w : String) :
    hasWord (insertIgnoreWord s w) w = true := by
  unfold insertIgnoreWord
  split
  · assumption
  · unfold hasWord
    simp

lemma hasWord_insertIgnoreWord_mono {s : PoolState} {v : String} (w : String)
    (h : hasWord s v = true) : hasWord (insertIgnoreWord s w) v = true := by
  unfold insertIgnoreWord
  split
  · exact h
  · unfold hasWord at h ⊢
    rw [List.any_append]
    simp [h]

lemma insertIgnoreWord_of_hasWord {s : PoolState} {w : String}
    (h : hasWord s w = true) : insertIgnoreWord s w = s := by
  unfold insertIgnoreWord
  rw [if_pos h]

lemma insertIgnoreWord_shape (s : PoolState) (w : String) :
    (∃ t, (insertIgnoreWord s w).words = s.words ++ t) ∧
      (insertIgnoreWord s w).daily = s.daily := by
  unfold insertIgnoreWord
  split
  · exact ⟨⟨[], (List.append_nil _).symm⟩, rfl⟩
  · exact ⟨⟨[⟨s.nextId, w, false, none⟩], rfl⟩, rfl⟩

lemma WF_insertIgnoreWord {s : PoolState} (w : String) (h : WF s) :
    WF (insertIgnoreWord s w) := by
  obtain ⟨h1, h2, h3⟩ := h
  unfold insertIgnoreWord
  split
  · exact ⟨h1, h2, h3⟩
  · rename_i hany
    refine ⟨?_, ?_, ?_⟩
    · rw [List.map_append]
      refine List.Nodup.append h1 (List.nodup_singleton _) ?_
      intro a ha ha'
      rcases List.mem_map.mp ha with ⟨y, hy, hya⟩
      rcases List.mem_map.mp ha' with ⟨z, hz, hza⟩
      simp only [List.mem_singleton] at hz
      rw [hz] at hza
      have hza' : s.nextId = a := hza
      have hlt := h2 y hy
      rw [hya, ← hza'] at hlt
      exact Nat.lt_irrefl _ hlt
    · intro x hx
      rcases List.mem_append.mp hx with hx | hx
      · exact Nat.lt_succ_of_lt (h2 x hx)
      · simp only [List.mem_singleton] at hx
        rw [hx]
        exact Nat.lt_succ_self _
    · rw [List.map_append]
      refine List.Nodup.append h3 (List.nodup_singleton _) ?_
      intro a ha ha'
      rcases List.mem_map.mp ha with ⟨y, hy, hya⟩
      rcases List.mem_map.mp ha' with ⟨z, hz, hza⟩
      simp only [List.mem_singleton] at hz
      rw [hz] at hza
      have hza' : w = a := hza
      apply hany
      unfold hasWord
      rw [List.any_eq_true]
      refine ⟨y, hy, ?_⟩
      rw [beq_iff_eq, hya]
      exact hza'.symm

lemma insertAll_hasWord_mono {ws : List String} {s : PoolState} {v : String}
    (h : hasWord s v = true) : hasWord (insertAll s ws) v = true := by
  induction ws generalizing s with
  | nil => exact h
  | cons a t ih => exact ih (hasWord_insertIgnoreWord_mono a h)

lemma insertAll_hasWord {ws : List String} {w : String} (hw : w ∈ ws)
    (s : PoolState) : hasWord (insertAll s ws) w = true := by
  induction ws generalizing s with
  | nil => cases hw
  | cons a t ih =>
      rcases List.mem_cons.mp hw with h | h
      · rw [h]
        show hasWord (insertAll (insertIgnoreWord s a) t) a = true
        exact insertAll_hasWord_mono (hasWord_insertIgnoreWord_self s a)
      · exact ih h _

lemma insertAll_noop {ws : List String} {s : PoolState}
    (h : ∀ w ∈ ws, hasWord s w = true) : insertAll s ws = s := by
  induction ws with
  | nil => rfl
  | cons a t ih =>
      unfold insertAll
      rw [insertIgnoreWord_of_hasWord (h a (List.mem_cons_self _ _))]
      exact ih fun w hw => h w (List.mem_cons_of_mem _ hw)

lemma insertAll_idem (s : PoolState) (ws : List String) :
    insertAll (insertAll s ws) ws = insertAll s ws :=
  insertAll_noop fun w hw => insertAll_hasWord hw s

lemma insertAll_shape (ws : List String) (s : PoolState) :
    (∃ t, (insertAll s ws).words = s.words ++ t) ∧
      (insertAll s ws).daily = s.daily := by
  induction ws generalizing s with
  | nil => exact ⟨⟨[], (List.append_nil _).symm⟩, rfl⟩
  | cons a t ih =>
      obtain ⟨⟨t1, ht1⟩, hd1⟩ := insertIgnoreWord_shape s a
      obtain ⟨⟨t2, ht2⟩, hd2⟩ := ih (insertIgnoreWord s a)
      refine ⟨⟨t1 ++ t2, ?_⟩, ?_⟩
      · show (insertAll (insertIgnoreWord s a) t).words = _
        rw [ht2, ht1, List.append_assoc]
      · show (insertAll (insertIgnoreWord s a) t).daily = _
        rw [hd2, hd1]

lemma WF_insertAll {ws : List String} {s : PoolState} (h : WF s) :
    WF (insertAll s ws) := by
  induction ws generalizing s with
  | nil => exact h
  | cons a t ih => exact ih (WF_insertIgnoreWord a h)

lemma importLinesWith_hasWord_mono {f : String → String} {lines : List String}
    {s : PoolState} {v : String} (h : hasWord s v = true) :
    hasWord (importLinesWith f s lines) v = true := by
  induction lines generalizing s with
  | nil => exact h
  | cons a t ih =>
      unfold importLinesWith
      split
      · exact ih h
      · exact ih (hasWord_insertIgnoreWord_mono _ h)

lemma importLinesWith_hasWord {f : String → String} {lines : List String}
    {l : String} (hl : l ∈ lines) (hne : ¬ f l = "") (s : PoolState) :
    hasWord (importLinesWith f s lines) (f l) = true := by
  induction lines generalizing s with
  | nil => cases hl
  | cons a t ih =>
      rcases List.mem_cons.mp hl with h | h
      · subst h
        unfold importLinesWith
        rw [if_neg hne]
        exact importLinesWith_hasWord_mono (hasWord_insertIgnoreWord_self s (f l))
      · unfold importLinesWith
        split
        · exact ih h s
        · exact ih h _

lemma importLinesWith_noop {f : String → String} {lines : List String}
    {s : PoolState} (h : ∀ l ∈ lines, ¬ f l = "" → hasWord s (f l) = true) :
    importLinesWith f s lines = s := by
  induction lines with
  | nil => rfl
  | cons a t ih =>
      unfold importLinesWith
      by_cases ha : f a = ""
      · rw [if_pos ha]
        exact ih fun l hl => h l (List.mem_cons_of_mem _ hl)
      · rw [if_neg ha, insertIgnoreWord_of_hasWord (h a (List.mem_cons_self _ _) ha)]
        exact ih fun l hl => h l (List.mem_cons_of_mem _ hl)

lemma importLinesWith_idem (f : String → String) (s : PoolState)
    (lines : List String) :
    importLinesWith f (importLinesWith f s lines) lines =
      importLinesWith f s lines :=
  importLinesWith_noop fun l hl hne => importLinesWith_hasWord hl hne s

lemma importLinesWith_shape (f : String → String) (lines : List String)
    (s : PoolState) :
    (∃ t, (importLinesWith f s lines).words = s.words ++ t) ∧
      (importLinesWith f s lines).daily = s.daily := by
  induction lines generalizing s with
  | nil => exact ⟨⟨[], (List.append_nil _).symm⟩, rfl⟩
  | cons a t ih =>
      unfold importLinesWith
      by_cases ha : f a = ""
      · rw [if_pos ha]
        exact ih s
      · rw [if_neg ha]
        obtain ⟨⟨t1, ht1⟩, hd1⟩ := insertIgnoreWord_shape s (f a)
        obtain ⟨⟨t2, ht2⟩, hd2⟩ := ih (insertIgnoreWord s (f a))
        refine ⟨⟨t1 ++ t2, ?_⟩, ?_⟩
        · rw [ht2, ht1, List.append_assoc]
        · rw [hd2, hd1]

lemma WF_importLinesWith {f : String → String} {lines : List String}
    {s : PoolState} (h : WF s) : WF (importLinesWith f s lines) := by
  induction lines generalizing s with
  | nil => exact h
  | cons a t ih =>
      unfold importLinesWith
      split
      · exact ih h
      · exact ih (WF_insertIgnoreWord _ h)

/-! ### Lemmas about the ledger write and the daily lookup -/

lemma saveDailyWord_words (s : PoolState) (d : String) (wid : Nat) :
    (saveDailyWord s d wid).words = s.words := rfl

lemma WF_saveDailyWord {s : PoolState} (d : String) (wid : Nat) (h : WF s) :
    WF (saveDailyWord s d wid) := h

lemma LedgerUnique_saveDailyWord {s : PoolState} (d : String) (wid : Nat)
    (h : LedgerUnique s) : LedgerUnique (saveDailyWord s d wid) := by
  unfold LedgerUnique saveDailyWord at *
  simp only [List.map_cons]
  rw [List.nodup_cons]
  constructor
  · intro hmem
    rcases List.mem_map.mp hmem with ⟨p, hp, hpd⟩
    have hp2 := (List.mem_filter.mp hp).2
    rw [hpd] at hp2
    simp at hp2
  · exact ((List.filter_sublist _).map _).nodup h

/-- After `save_daily_word`, today's lookup joins back exactly the saved
word (primary keys are unique). -/
lemma getDaily_save_found {s : PoolState} (d : String) {w : Word}
    (hnd : (s.words.map Word.id).Nodup) (hw : w ∈ s.words) :
    getDailyWordForDate (saveDailyWord s d w.id) d = some w := by
  unfold getDailyWordForDate saveDailyWord
  rw [List.find?_cons_of_pos _ (by simp)]
  exact find_id_of_mem hnd hw

/-! ### Preservation across arbitrary operation sequences -/

lemma WF_applyOp (o : Op) {s : PoolState} (h : WF s) : WF (applyOp o s) := by
  cases o with
  | pick k d =>
      simp only [applyOp]
      cases hp : pickAndMarkUnused s k d with
      | error e => exact h
      | ok p =>
          obtain ⟨w, s1⟩ := p
          exact WF_pick h hp
  | saveDaily d wid => exact h
  | job k d =>
      simp only [applyOp, chooseDailyWordJob]
      cases hg : getDailyWordForDate s d with
      | some w => exact h
      | none =>
          cases hp : pickAndMarkUnused s k d with
          | error e => exact h
          | ok p =>
              obtain ⟨w, s1⟩ := p
              exact WF_saveDailyWord _ _ (WF_pick h hp)
  | force k d =>
      simp only [applyOp, apiForceTodayChoice]
      cases hg : getDailyWordForDate s d with
      | some w => exact h
      | none =>
          cases hp : pickAndMarkUnused s k d with
          | error e => exact h
          | ok p =>
              obtain ⟨w, s1⟩ := p
              exact WF_saveDailyWord _ _ (WF_pick h hp)
  | importF ls => exact WF_importLinesWith h
  | seedF ls => exact WF_insertAll h

lemma WF_applyOps (ops : List Op) {s : PoolState} (h : WF s) :
    WF (applyOps ops s) := by
  induction ops generalizing s with
  | nil => exact h
  | cons o t ih => exact ih (WF_applyOp o h)

/-- One operation never deletes a row, never changes a row's id or text, and
leaves a consumed row entirely untouched. -/
lemma word_preserved_applyOp (o : Op) {s : PoolState} (h : WF s) {x : Word}
    (hx : x ∈ s.words) :
    ∃ x' ∈ (applyOp o s).words,
      x'.id = x.id ∧ x'.word = x.word ∧ (x.used = true → x' = x) := by
  cases o with
  | pick k d =>
      simp only [applyOp]
      cases hp : pickAndMarkUnused s k d with
      | error e => exact ⟨x, hx, rfl, rfl, fun _ => rfl⟩
      | ok p =>
          obtain ⟨w, s1⟩ := p
          obtain ⟨c, hc, hcu, hw, hs1⟩ := pick_ok_inv hp
          subst hs1
          exact ⟨markUsed c.id d x, List.mem_map_of_mem _ hx, markUsed_id _ _ _,
            markUsed_word _ _ _, fun hxu => markUsed_fixed_of_used d h.1 hc hcu hx hxu⟩
  | saveDaily d wid => exact ⟨x, hx, rfl, rfl, fun _ => rfl⟩
  | job k d =>
      simp only [applyOp, chooseDailyWordJob]
      cases hg : getDailyWordForDate s d with
      | some w => exact ⟨x, hx, rfl, rfl, fun _ => rfl⟩
      | none =>
          cases hp : pickAndMarkUnused s k d with
          | error e => exact ⟨x, hx, rfl, rfl, fun _ => rfl⟩
          | ok p =>
              obtain ⟨w, s1⟩ := p
              obtain ⟨c, hc, hcu, hw, hs1⟩ := pick_ok_inv hp
              subst hs1
              exact ⟨markUsed c.id d x, List.mem_map_of_mem _ hx, markUsed_id _ _ _,
                markUsed_word _ _ _,
                fun hxu => markUsed_fixed_of_used d h.1 hc hcu hx hxu⟩
  | force k d =>
      simp only [applyOp, apiForceTodayChoice]
      cases hg : getDailyWordForDate s d with
      | some w => exact ⟨x, hx, rfl, rfl, fun _ => rfl⟩
      | none =>
          cases hp : pickAndMarkUnused s k d with
          | error e => exact ⟨x, hx, rfl, rfl, fun _ => rfl⟩
          | ok p =>
              obtain ⟨w, s1⟩ := p
              obtain ⟨c, hc, hcu, hw, hs1⟩ := pick_ok_inv hp
              subst hs1
              exact ⟨markUsed c.id d x, List.mem_map_of_mem _ hx, markUsed_id _ _ _,
                markUsed_word _ _ _,
                fun hxu => markUsed_fixed_of_used d h.1 hc hcu hx hxu⟩
  | importF ls =>
      obtain ⟨⟨t, ht⟩, -⟩ := importLinesWith_shape (fun l => pyLower (pyStrip l)) ls s
      refine ⟨x, ?_, rfl, rfl, fun _ => rfl⟩
      show x ∈ (importLinesWith _ s ls).words
      rw [ht]
      exact List.mem_append_left _ hx
  | seedF ls =>
      obtain ⟨⟨t, ht⟩, -⟩ := insertAll_shape
        ((ls.filter (fun l => !(pyStrip l == ""))).map (fun l => pyLower (pyStrip l))) s
      refine ⟨x, ?_, rfl, rfl, fun _ => rfl⟩
      show x ∈ (insertAll s _).words
      rw [ht]
      exact List.mem_append_left _ hx

lemma word_preserved_applyOps (ops : List Op) {s : PoolState} (h : WF s)
    {x : Word} (hx : x ∈ s.words) :
    ∃ x' ∈ (applyOps ops s).words,
      x'.id = x.id ∧ x'.word = x.word ∧ (x.used = true → x' = x) := by
  induction ops generalizing s x with
  | nil => exact ⟨x, hx, rfl, rfl, fun _ => rfl⟩
  | cons o t ih =>
      obtain ⟨x1, hx1, hid1, hword1, hused1⟩ := word_preserved_applyOp o h hx
      obtain ⟨x2, hx2, hid2, hword2, hused2⟩ := ih (WF_applyOp o h) hx1
      refine ⟨x2, hx2, hid2.trans hid1, hword2.trans hword1, ?_⟩
      intro hxu
      have he1 : x1 = x := hused1 hxu
      have he2 : x2 = x1 := hused2 (by rw [he1]; exact hxu)
      rw [he2, he1]

lemma words_length_applyOp (o : Op) (s : PoolState) :
    s.words.length ≤ (applyOp o s).words.length := by
  cases o with
  | pick k d =>
      simp only [applyOp]
      cases hp : pickAndMarkUnused s k d with
      | error e => exact Nat.le_refl _
      | ok p =>
          obtain ⟨w, s1⟩ := p
          obtain ⟨c, hc, hcu, hw, hs1⟩ := pick_ok_inv hp
          subst hs1
          simp
  | saveDaily d wid => exact Nat.le_refl _
  | job k d =>
      simp only [applyOp, chooseDailyWordJob]
      cases hg : getDailyWordForDate s d with
      | some w => exact Nat.le_refl _
      | none =>
          cases hp : pickAndMarkUnused s k d with
          | error e => exact Nat.le_refl _
          | ok p =>
              obtain ⟨w, s1⟩ := p
              obtain ⟨c, hc, hcu, hw, hs1⟩ := pick_ok_inv hp
              subst hs1
              simp [saveDailyWord]
  | force k d =>
      simp only [applyOp, apiForceTodayChoice]
      cases hg : getDailyWordForDate s d with
      | some w => exact Nat.le_refl _
      | none =>
          cases hp : pickAndMarkUnused s k d with
          | error e => exact Nat.le_refl _
          | ok p =>
              obtain ⟨w, s1⟩ := p
              obtain ⟨c, hc, hcu, hw, hs1⟩ := pick_ok_inv hp
              subst hs1
              simp [saveDailyWord]
  | importF ls =>
      obtain ⟨⟨t, ht⟩, -⟩ := importLinesWith_shape (fun l => pyLower (pyStrip l)) ls s
      show s.words.length ≤ (importLinesWith _ s ls).words.length
      rw [ht, List.length_append]
      exact Nat.le_add_right _ _
  | seedF ls =>
      obtain ⟨⟨t, ht⟩, -⟩ := insertAll_shape
        ((ls.filter (fun l => !(pyStrip l == ""))).map (fun l => pyLower (pyStrip l))) s
      show s.words.length ≤ (insertAll s _).words.length
      rw [ht, List.length_append]
      exact Nat.le_add_right _ _

lemma words_length_applyOps (ops : List Op) (s : PoolState) :
    s.words.length ≤ (applyOps ops s).words.length := by
  induction ops generalizing s with
  | nil => exact Nat.le_refl _
  | cons o t ih => exact Nat.le_trans (words_length_applyOp o s) (ih _)

lemma LedgerUnique_applyOp (o : Op) {s : PoolState} (h : LedgerUnique s) :
    LedgerUnique (applyOp o s) := by
  cases o with
  | pick k d =>
      simp only [applyOp]
      cases hp : pickAndMarkUnused s k d with
      | error e => exact h
      | ok p =>
          obtain ⟨w, s1⟩ := p
          obtain ⟨c, hc, hcu, hw, hs1⟩ := pick_ok_inv hp
          subst hs1
          exact h
  | saveDaily d wid => exact LedgerUnique_saveDailyWord d wid h
  | job k d =>
      simp only [applyOp, chooseDailyWordJob]
      cases hg : getDailyWordForDate s d with
      | some w => exact h
      | none =>
          cases hp : pickAndMarkUnused s k d with
          | error e => exact h
          | ok p =>
              obtain ⟨w, s1⟩ := p
              obtain ⟨c, hc, hcu, hw, hs1⟩ := pick_ok_inv hp
              subst hs1
              exact LedgerUnique_saveDailyWord _ _ h
  | force k d =>
      simp only [applyOp, apiForceTodayChoice]
      cases hg : getDailyWordForDate s d with
      | some w => exact h
      | none =>
          cases hp : pickAndMarkUnused s k d with
          | error e => exact h
          | ok p =>
              obtain ⟨w, s1⟩ := p
              obtain ⟨c, hc, hcu, hw, hs1⟩ := pick_ok_inv hp
              subst hs1
              exact LedgerUnique_saveDailyWord _ _ h
  | importF ls =>
      obtain ⟨-, hd⟩ := importLinesWith_shape (fun l => pyLower (pyStrip l)) ls s
      show LedgerUnique (importLinesWith _ s ls)
      unfold LedgerUnique
      rw [hd]
      exact h
  | seedF ls =>
      obtain ⟨-, hd⟩ := insertAll_shape
        ((ls.filter (fun l => !(pyStrip l == ""))).map (fun l => pyLower (pyStrip l))) s
      show LedgerUnique (insertAll s _)
      unfold LedgerUnique
      rw [hd]
      exact h

lemma LedgerUnique_applyOps (ops : List Op) {s : PoolState}
    (h : LedgerUnique s) : LedgerUnique (applyOps ops s) := by
  induction ops generalizing s with
  | nil => exact h
  | cons o t ih => exact ih (LedgerUnique_applyOp o h)

lemma words_shape_engineFree {o : Op} (s : PoolState) (h : engineFree o = true) :
    ∃ t, (applyOp o s).words = s.words ++ t := by
  cases o with
  | pick k d => exact absurd h (by simp [engineFree])
  | job k d => exact absurd h (by simp [engineFree])
  | force k d => exact absurd h (by simp [engineFree])
  | saveDaily d wid => exact ⟨[], (List.append_nil _).symm⟩
  | importF ls => exact (importLinesWith_shape _ ls s).1
  | seedF ls => exact (insertAll_shape _ s).1

lemma words_shape_engineFree_ops {ops : List Op} (s : PoolState)
    (h : ∀ o ∈ ops, engineFree o = true) :
    ∃ t, (applyOps ops s).words = s.words ++ t := by
  induction ops generalizing s with
  | nil => exact ⟨[], (List.append_nil _).symm⟩
  | cons o t ih =>
      obtain ⟨t1, ht1⟩ := words_shape_engineFree s (h o (List.mem_cons_self _ _))
      obtain ⟨t2, ht2⟩ := ih (applyOp o s) fun x hx => h x (List.mem_cons_of_mem _ hx)
      exact ⟨t1 ++ t2, by rw [applyOps, ht2, ht1, List.append_assoc]⟩

/-! ### Lemmas about successive picks -/

/-- Every word returned during a run of picks corresponds to a row that was
available in the starting state. -/
lemma runPicks_avail_origin {ps : List (Nat × String)} {s : PoolState}
    {ws : List Word} {s' : PoolState} (h : runPicks s ps = some (ws, s')) :
    ∀ v ∈ ws, ∃ c ∈ s.words, c.used = false ∧ c.id = v.id := by
  induction ps generalizing s ws with
  | nil =>
      unfold runPicks at h
      obtain ⟨h1, -⟩ := Prod.mk.injEq .. ▸ Option.some.inj h
      rw [← h1]
      intro v hv
      cases hv
  | cons p rest ih =>
      unfold runPicks at h
      cases hp : pickAndMarkUnused s p.1 p.2 with
      | error e => rw [hp] at h; exact absurd h Option.noConfusion
      | ok q =>
          obtain ⟨w, s1⟩ := q
          rw [hp] at h
          dsimp only at h
          cases hr : runPicks s1 rest with
          | none => rw [hr] at h; exact absurd h Option.noConfusion
          | some r =>
              obtain ⟨ws1, s2⟩ := r
              rw [hr] at h
              dsimp only at h
              obtain ⟨h1, h2⟩ := Prod.mk.injEq .. ▸ Option.some.inj h
              intro v hv
              rw [← h1] at hv
              obtain ⟨c, hc, hcu, hw, hs1⟩ := pick_ok_inv hp
              rcases List.mem_cons.mp hv with hv | hv
              · refine ⟨c, hc, hcu, ?_⟩
                rw [hv, hw]
              · obtain ⟨c1, hc1, hc1u, hc1id⟩ := ih (h2 ▸ hr) v hv
                rw [hs1] at hc1
                exact ⟨c1, avail_origin_map hc1 hc1u, hc1u, hc1id⟩

/-- From a state with exactly `ps.length` available words, every pick in the
run succeeds, the returned words are pairwise distinct, and afterwards no
available word remains. -/
lemma runPicks_spec {ps : List (Nat × String)} {s : PoolState} (hWF : WF s)
    (hn : ps.length = countAvail s) :
    ∃ ws s', runPicks s ps = some (ws, s') ∧ ws.length = ps.length ∧
      (ws.map Word.id).Nodup ∧ countAvail s' = 0 := by
  induction ps generalizing s with
  | nil => exact ⟨[], s, rfl, rfl, List.nodup_nil, hn.symm⟩
  | cons p rest ih =>
      have hfl : ¬ s.words.filter (fun w => w.used == false) = [] := by
        intro h0
        have : countAvail s = 0 := (countAvail_eq_zero_iff s).mpr h0
        rw [← hn] at this
        exact Nat.noConfusion this
      obtain ⟨c, hc, hcu, hok⟩ := pick_ok_of_avail p.1 p.2 hfl
      have hWF1 := WF_pick hWF hok
      have hcnt := countAvail_pick hWF hok
      have hn1 : rest.length = countAvail
          { s with words := s.words.map (markUsed c.id p.2) } := by
        have := hn
        simp only [List.length_cons] at this
        omega
      obtain ⟨ws, s', hrun, hlen, hnd, hzero⟩ := ih hWF1 hn1
      refine ⟨⟨c.id, c.word, true, some p.2⟩ :: ws, s', ?_, ?_, ?_, hzero⟩
      · unfold runPicks
        rw [hok]
        dsimp only
        rw [hrun]
      · simp [hlen]
      · rw [List.map_cons, List.nodup_cons]
        refine ⟨?_, hnd⟩
        intro hmem
        rcases List.mem_map.mp hmem with ⟨v, hv, hvid⟩
        obtain ⟨c1, hc1, hc1u, hc1id⟩ := runPicks_avail_origin hrun v hv
        have : ¬ c1.id = c.id := avail_map_ne hc1 hc1u
        apply this
        rw [hc1id, hvid]

/-! ### Lemmas about the stats aggregation -/

lemma strLeB_total : ∀ a b : List Char, strLeB a b = true ∨ strLeB b a = true := by
  intro a
  induction a with
  | nil => intro b; exact Or.inl rfl
  | cons x xs ih =>
      intro b
      cases b with
      | nil => exact Or.inr rfl
      | cons y ys =>
          by_cases hxy : x.toNat < y.toNat
          · refine Or.inl ?_
            unfold strLeB
            rw [if_pos hxy]
          · by_cases hyx : y.toNat < x.toNat
            · refine Or.inr ?_
              unfold strLeB
              rw [if_pos hyx]
            · rcases ih ys with h | h
              · refine Or.inl ?_
                unfold strLeB
                rw [if_neg hxy, if_neg hyx]
                exact h
              · refine Or.inr ?_
                unfold strLeB
                rw [if_neg hyx, if_neg hxy]
                exact h

lemma strLeB_trans : ∀ a b c : List Char,
    strLeB a b = true → strLeB b c = true → strLeB a c = true := by
  intro a
  induction a with
  | nil => intro b c _ _; rfl
  | cons x xs ih =>
      intro b c h1 h2
      cases b with
      | nil => exact absurd h1 (by simp [strLeB])
      | cons y ys =>
          cases c with
          | nil => exact absurd h2 (by simp [strLeB])
          | cons z zs =>
              unfold strLeB at h1 h2 ⊢
              by_cases hxy : x.toNat < y.toNat
              · by_cases hyz : y.toNat < z.toNat
                · rw [if_pos (show x.toNat < z.toNat by omega)]
                · rw [if_neg hyz] at h2
                  by_cases hzy : z.toNat < y.toNat
                  · rw [if_pos hzy] at h2
                    exact absurd h2 Bool.noConfusion
                  · rw [if_pos (show x.toNat < z.toNat by omega)]
              · rw [if_neg hxy] at h1
                by_cases hyx : y.toNat < x.toNat
                · rw [if_pos hyx] at h1
                  exact absurd h1 Bool.noConfusion
                · rw [if_neg hyx] at h1
                  by_cases hyz : y.toNat < z.toNat
                  · rw [if_pos (show x.toNat < z.toNat by omega)]
                  · rw [if_neg hyz] at h2
                    by_cases hzy : z.toNat < y.toNat
                    · rw [if_pos hzy] at h2
                      exact absurd h2 Bool.noConfusion
                    · rw [if_neg hzy] at h2
                      rw [if_neg (show ¬ x.toNat < z.toNat by omega),
                          if_neg (show ¬ z.toNat < x.toNat by omega)]
                      exact ih ys zs h1 h2

lemma sortByDateDesc_perm (l : List (String × String)) :
    List.Perm (sortByDateDesc l) l :=
  List.perm_insertionSort _ l

lemma sortByDateDesc_sorted (l : List (String × String)) :
    List.Pairwise (fun a b : String × String => dateLeB b.1 a.1 = true)
      (sortByDateDesc l) := by
  haveI h1 : IsTotal (String × String) (fun a b => dateLeB b.1 a.1 = true) :=
    ⟨fun a b => strLeB_total b.1.data a.1.data⟩
  haveI h2 : IsTrans (String × String) (fun a b => dateLeB b.1 a.1 = true) :=
    ⟨fun _ _ _ hab hbc => strLeB_trans _ _ _ hbc hab⟩
  exact List.sorted_insertionSort _ l

lemma sum_indicator_eq_filter_length (l : List Word) :
    (l.map (fun w => if w.used then 1 else 0)).sum =
      (l.filter (fun w => w.used)).length := by
  induction l with
  | nil => rfl
  | cons a t ih =>
      rw [List.map_cons, List.sum_cons]
      cases ha : a.used
      · rw [List.filter_cons_of_neg (by simp [ha]), if_neg (by simp [ha])]
        rw [ih]
        omega
      · rw [List.filter_cons_of_pos (by simp [ha]), if_pos (by simp [ha])]
        rw [List.length_cons, ih]
        omega

lemma filter_used_split (l : List Word) :
    (l.filter (fun w => w.used == false)).length +
      (l.filter (fun w => w.used)).length = l.length := by
  induction l with
  | nil => rfl
  | cons a t ih =>
      cases ha : a.used
      · rw [List.filter_cons_of_pos (by simp [ha]),
            List.filter_cons_of_neg (by simp [ha])]
        rw [List.length_cons, List.length_cons]
        omega
      · rw [List.filter_cons_of_neg (by simp [ha]),
            List.filter_cons_of_pos (by simp [ha])]
        rw [List.length_cons, List.length_cons]
        omega

/-! ### Claim theorems -/

/-- C4: within a pool, the Daily Assignment ledger never contains two rows
for the same calendar date: the ledger of a freshly initialised database has
pairwise-distinct date keys, and every operation (selection-engine pick,
ledger write, scheduler job, force-assignment, bulk import, seeding)
preserves that at-most-one-assignment-per-date property. -/
theorem ledger_unique_invariant :
    LedgerUnique initState ∧
      ∀ (ops : List Op) (s : PoolState), LedgerUnique s →
        LedgerUnique (applyOps ops s) :=
  ⟨List.nodup_nil, fun ops _ h => LedgerUnique_applyOps ops h⟩

/-- Witness for C4: the invariant applied to a concrete run that writes the
same date twice (a force-assignment then an explicit ledger overwrite). -/
theorem ledger_unique_invariant_witness :
    LedgerUnique
      (applyOps [Op.force 0 "2024-01-01", Op.saveDaily "2024-01-01" 2]
        alphaBetaPool) :=
  ledger_unique_invariant.2 [Op.force 0 "2024-01-01", Op.saveDaily "2024-01-01" 2]
    alphaBetaPool (by decide)

/-- C6 counterexample: `word_exists_hebrew` strips surrounding whitespace
before comparing, so it is not a pure exact-text check: on a pool whose only
word is "שלום", the query " שלום" (leading space) returns true although no
stored word equals that input text. -/
theorem word_exists_hebrew_exact_cex :
    wordExistsHebrew hebrewDemoPool " שלום" = true ∧
      ¬ ∃ w ∈ hebrewDemoPool.words, w.word = " שלום" := by
  constructor
  · rfl
  · decide

/-- C6 (amended): `word_exists_hebrew` returns true exactly when a word
whose text equals the input stripped of surrounding whitespace — with no
case normalization — exists in the Hebrew pool. -/
theorem word_exists_hebrew_strip_iff (s : PoolState) (t : String) :
    wordExistsHebrew s t = true ↔ ∃ w ∈ s.words, w.word = pyStrip t := by
  unfold wordExistsHebrew
  rw [List.any_eq_true]
  simp only [beq_iff_eq]

/-- C7: `word_exists_english` is case-insensitive via normalization: it
returns true exactly when the English pool contains the normalized
(stripped, lowercased) form of the query; in particular the query "Hello"
finds the stored word "hello". -/
theorem word_exists_english_normalized_iff (s : PoolState) (t : String) :
    (wordExistsEnglish s t = true ↔
        ∃ w ∈ s.words, w.word = pyLower (pyStrip t)) ∧
      wordExistsEnglish englishDemoPool "Hello" = true := by
  constructor
  · unfold wordExistsEnglish
    rw [List.any_eq_true]
    simp only [beq_iff_eq]
  · rfl

/-- C8: bulk import is idempotent — importing the same line list twice (via
main.py's English import, its Hebrew import, or loader.py's seeding script)
leaves the state of the single import, so in particular the total word
count is unchanged; and a line whose normalized text is already stored is
silently skipped (the insert is a no-op, not an error). -/
theorem import_idempotent (s : PoolState) (lines : List String) :
    importWordsFromFile (importWordsFromFile s lines) lines =
        importWordsFromFile s lines ∧
      importHebrewWords (importHebrewWords s lines) lines =
        importHebrewWords s lines ∧
      seed (seed s lines) lines = seed s lines ∧
      (importWordsFromFile (importWordsFromFile s lines) lines).words.length =
        (importWordsFromFile s lines).words.length ∧
      ∀ w, hasWord s w = true → insertIgnoreWord s w = s := by
  refine ⟨importLinesWith_idem _ s lines, importLinesWith_idem _ s lines,
    insertAll_idem s _, ?_, fun _ h => insertIgnoreWord_of_hasWord h⟩
  exact congrArg (fun st => st.words.length) (importLinesWith_idem _ s lines)

/-- Witness for C8: duplicate insertion of an already-stored word is a
no-op on the concrete two-word pool. -/
theorem import_idempotent_witness :
    insertIgnoreWord alphaBetaPool "alpha" = alphaBetaPool :=
  (import_idempotent alphaBetaPool []).2.2.2.2 "alpha" (by decide)

/-- C10: pool independence — a sequence of operations whose SQL touches only
the English pool's tables leaves the Hebrew pool's word table and assignment
ledger unchanged, and a sequence touching only the Hebrew pool's tables
leaves the English pool's state unchanged. -/
theorem pool_independence :
    (∀ (g : GlobalState) (gops : List GOp),
        (∀ o ∈ gops, isEnglishOp o = true) →
          (applyGOps gops g).hebrew = g.hebrew) ∧
      ∀ (g : GlobalState) (gops : List GOp),
        (∀ o ∈ gops, isEnglishOp o = false) →
          (applyGOps gops g).english = g.english := by
  constructor
  · intro g gops
    induction gops generalizing g with
    | nil => intro _; rfl
    | cons o t ih =>
        intro h
        cases o with
        | eng oe => exact ih _ fun x hx => h x (List.mem_cons_of_mem _ hx)
        | heb oh =>
            have := h _ (List.mem_cons_self _ _)
            exact absurd this (by simp [isEnglishOp])
  · intro g gops
    induction gops generalizing g with
    | nil => intro _; rfl
    | cons o t ih =>
        intro h
        cases o with
        | heb oh => exact ih _ fun x hx => h x (List.mem_cons_of_mem _ hx)
        | eng oe =>
            have := h _ (List.mem_cons_self _ _)
            exact absurd this (by simp [isEnglishOp])

/-- Witness for C10: a concrete English pick leaves the Hebrew pool intact
and a concrete Hebrew pick leaves the English pool intact. -/
theorem pool_independence_witness :
    (applyGOps [GOp.eng (Op.pick 0 "2024-01-01")] demoGlobal).hebrew =
        demoGlobal.hebrew ∧
      (applyGOps [GOp.heb (OpH.pick 0 "2024-01-01")] demoGlobal).english =
        demoGlobal.english :=
  ⟨pool_independence.1 demoGlobal [GOp.eng (Op.pick 0 "2024-01-01")] (by decide),
   pool_independence.2 demoGlobal [GOp.heb (OpH.pick 0 "2024-01-01")] (by decide)⟩

/-- C1: on a pool with at least one available word, `pick_and_mark_unused`
(and, on the same pool state, its Hebrew clone) succeeds and returns a word
that was available before the call, now carrying consumed flag true and the
caller's current UTC date as consumption date; the returned word is stored
consumed, no available row of the new state carries its id, the available
count drops by exactly one, and no later successful draw — after any further
sequence of operations — can return a word with its id. -/
theorem select_and_consume_spec (s : PoolState) (k : Nat) (today : String)
    (hWF : WF s) (hav : 0 < countAvail s) :
    ∃ w s', pickAndMarkUnused s k today = .ok (w, s') ∧
      pickAndMarkUnusedHebrew s k today = .ok (w, s') ∧
      (∃ c ∈ s.words, c.used = false ∧ c.id = w.id ∧ c.word = w.word) ∧
      w.used = true ∧ w.used_at = some today ∧
      w ∈ s'.words ∧
      (∀ x ∈ s'.words, x.used = false → ¬ x.id = w.id) ∧
      countAvail s' + 1 = countAvail s ∧
      ∀ (ops : List Op) (k2 : Nat) (d2 : String) (w2 : Word) (s2 : PoolState),
        pickAndMarkUnused (applyOps ops s') k2 d2 = .ok (w2, s2) →
          ¬ w2.id = w.id := by
  have hfl : ¬ s.words.filter (fun x => x.used == false) = [] := by
    intro h0
    have h1 := (countAvail_eq_zero_iff s).mpr h0
    rw [h1] at hav
    exact Nat.lt_irrefl 0 hav
  obtain ⟨c, hc, hcu, hok⟩ := pick_ok_of_avail k today hfl
  have hWF' : WF { s with words := s.words.map (markUsed c.id today) } :=
    WF_pick hWF hok
  have hcmark : markUsed c.id today c = ⟨c.id, c.word, true, some today⟩ :=
    markUsed_of_eq rfl
  have hmem : (⟨c.id, c.word, true, some today⟩ : Word) ∈
      { s with words := s.words.map (markUsed c.id today) }.words := by
    rw [← hcmark]
    exact List.mem_map_of_mem _ hc
  refine ⟨⟨c.id, c.word, true, some today⟩,
    { s with words := s.words.map (markUsed c.id today) },
    hok, ?_, ⟨c, hc, hcu, rfl, rfl⟩, rfl, rfl, hmem, ?_, ?_, ?_⟩
  · rw [pickHebrew_eq_of_avail k today hfl]
    exact hok
  · intro x hx hxu
    exact avail_map_ne hx hxu
  · exact countAvail_map_markUsed today hWF.1 hc hcu
  · intro ops k2 d2 w2 s2 hp2 heq
    obtain ⟨u', hu', huid, huw, hueq⟩ := word_preserved_applyOps ops hWF' hmem
    have hufix : u' = ⟨c.id, c.word, true, some today⟩ := hueq rfl
    have hWFf := WF_applyOps ops hWF'
    obtain ⟨c2, hc2, hc2u, hw2, hs2⟩ := pick_ok_inv hp2
    have hc2id : c2.id = u'.id := by
      rw [hufix]
      have : w2.id = c2.id := by rw [hw2]
      rw [← this, heq]
    have hc2u' : c2 = u' := mem_id_inj hWFf.1 hc2 hu' hc2id
    rw [hc2u', hufix] at hc2u
    exact Bool.noConfusion hc2u

/-- Witness for C1: the scenario pool {"alpha", "beta"} has an available
word, so the first selection succeeds and its guarantees are exercised at
concrete inputs. -/
theorem select_and_consume_spec_witness :
    ∃ w s', pickAndMarkUnused alphaBetaPool 0 "2024-01-01" = .ok (w, s') ∧
      pickAndMarkUnusedHebrew alphaBetaPool 0 "2024-01-01" = .ok (w, s') ∧
      (∃ c ∈ alphaBetaPool.words, c.used = false ∧ c.id = w.id ∧ c.word = w.word) ∧
      w.used = true ∧ w.used_at = some "2024-01-01" ∧
      w ∈ s'.words ∧
      (∀ x ∈ s'.words, x.used = false → ¬ x.id = w.id) ∧
      countAvail s' + 1 = countAvail alphaBetaPool ∧
      ∀ (ops : List Op) (k2 : Nat) (d2 : String) (w2 : Word) (s2 : PoolState),
        pickAndMarkUnused (applyOps ops s') k2 d2 = .ok (w2, s2) →
          ¬ w2.id = w.id :=
  select_and_consume_spec alphaBetaPool 0 "2024-01-01" (by decide) (by decide)

/-- C2: the selection engine fails (with the EmptyPool condition, an HTTP
404) exactly when no available word remains; the failure path leaves the
pool state unchanged; and from a pool with exactly `n` available words, `n`
successive calls all succeed with pairwise-distinct words after which every
further call fails. -/
theorem empty_pool_spec :
    (∀ (s : PoolState) (k : Nat) (d : String),
        (∃ e, pickAndMarkUnused s k d = .error e) ↔ countAvail s = 0) ∧
      (∀ (s : PoolState) (k : Nat) (d : String) (e : String),
          pickAndMarkUnused s k d = .error e → applyOp (.pick k d) s = s) ∧
      ∀ (s : PoolState) (ps : List (Nat × String)), WF s →
        ps.length = countAvail s →
          ∃ ws s', runPicks s ps = some (ws, s') ∧ ws.length = ps.length ∧
            (ws.map Word.id).Nodup ∧
            ∀ (k : Nat) (d : String), ∃ e, pickAndMarkUnused s' k d = .error e := by
  refine ⟨pick_error_iff, ?_, ?_⟩
  · intro s k d e h
    simp only [applyOp]
    rw [h]
  · intro s ps hWF hn
    obtain ⟨ws, s', h1, h2, h3, h4⟩ := runPicks_spec hWF hn
    exact ⟨ws, s', h1, h2, h3, fun k d => (pick_error_iff s' k d).mpr h4⟩

/-- Witness for C2: on the pool {"alpha", "beta"} two picks exhaust the pool
and the next call fails; a failing pick on the empty initial state leaves it
unchanged. -/
theorem empty_pool_spec_witness :
    applyOp (.pick 0 "2024-01-01") initState = initState ∧
      ∃ ws s',
        runPicks alphaBetaPool [(0, "2024-01-01"), (0, "2024-01-02")] =
            some (ws, s') ∧
          ws.length = [(0, "2024-01-01"), (0, "2024-01-02")].length ∧
          (ws.map Word.id).Nodup ∧
          ∀ (k : Nat) (d : String), ∃ e, pickAndMarkUnused s' k d = .error e :=
  ⟨empty_pool_spec.2.1 initState 0 "2024-01-01" "No unused words available" rfl,
   empty_pool_spec.2.2 alphaBetaPool [(0, "2024-01-01"), (0, "2024-01-02")]
     (by decide) (by decide)⟩

/-- C3: ensure-assignment is idempotent per date.  If an assignment already
exists for the date, the scheduler job is a no-op and the force entry point
returns the existing assignment with the state unchanged; and after any
successful force call, an immediate second call (any random choice) returns
the identical word with the state unchanged — consuming no additional
word — and the scheduler job is likewise a no-op. -/
theorem ensure_assignment_idempotent :
    (∀ (s : PoolState) (k : Nat) (d : String) (a : Word),
        getDailyWordForDate s d = some a →
          chooseDailyWordJob s k d = s ∧
            apiForceTodayChoice s k d = .ok (a, s)) ∧
      ∀ (s : PoolState) (k k2 : Nat) (d : String) (w : Word) (s' : PoolState),
        WF s → apiForceTodayChoice s k d = .ok (w, s') →
          apiForceTodayChoice s' k2 d = .ok (w, s') ∧
            chooseDailyWordJob s' k2 d = s' := by
  constructor
  · intro s k d a h
    constructor
    · unfold chooseDailyWordJob
      rw [h]
    · unfold apiForceTodayChoice
      rw [h]
  · intro s k k2 d w s' hWF hforce
    have hkey : getDailyWordForDate s' d = some w := by
      unfold apiForceTodayChoice at hforce
      cases hg : getDailyWordForDate s d with
      | some a =>
          rw [hg] at hforce
          dsimp only at hforce
          obtain ⟨ha, hs⟩ := Prod.mk.injEq .. ▸ Except.ok.inj hforce
          rw [← hs, ← ha]
          exact hg
      | none =>
          rw [hg] at hforce
          dsimp only at hforce
          cases hp : pickAndMarkUnused s k d with
          | error e =>
              rw [hp] at hforce
              exact absurd hforce Except.noConfusion
          | ok q =>
              obtain ⟨chosen, s1⟩ := q
              rw [hp] at hforce
              dsimp only at hforce
              obtain ⟨hcw, hs⟩ := Prod.mk.injEq .. ▸ Except.ok.inj hforce
              obtain ⟨c, hc, hcu, hwc, hs1⟩ := pick_ok_inv hp
              have hWF1 : WF s1 := WF_pick hWF hp
              have hmem : chosen ∈ s1.words := by
                rw [hs1, hwc]
                have hcm : markUsed c.id d c = ⟨c.id, c.word, true, some d⟩ :=
                  markUsed_of_eq rfl
                rw [← hcm]
                exact List.mem_map_of_mem _ hc
              have hfound := getDaily_save_found d hWF1.1 hmem
              rw [hs] at hfound
              rw [hcw] at hfound
              exact hfound
    constructor
    · unfold apiForceTodayChoice
      rw [hkey]
    · unfold chooseDailyWordJob
      rw [hkey]

/-- Witness for C3: on the one-word pool {"zeta"}, the force call assigns
"zeta" to 2024-01-01; the immediate second call returns the identical
assignment with no further state change, and the scheduler job is a no-op
on the resulting state. -/
theorem ensure_assignment_idempotent_witness :
    (chooseDailyWordJob zetaPoolAfter 3 "2024-01-01" = zetaPoolAfter ∧
        apiForceTodayChoice zetaPoolAfter 3 "2024-01-01" =
          .ok (zetaPicked, zetaPoolAfter)) ∧
      apiForceTodayChoice zetaPoolAfter 0 "2024-01-01" =
          .ok (zetaPicked, zetaPoolAfter) ∧
        chooseDailyWordJob zetaPoolAfter 0 "2024-01-01" = zetaPoolAfter :=
  ⟨ensure_assignment_idempotent.1 zetaPoolAfter 3 "2024-01-01" zetaPicked rfl,
   ensure_assignment_idempotent.2 zetaPool 0 0 "2024-01-01" zetaPicked
     zetaPoolAfter (by decide) rfl⟩

/-- C5: word-lifecycle monotonicity.  Across any sequence of operations:
every stored row survives with its id and text intact, and a row whose
consumed flag is already true is never modified at all (so the flag is
never reset and the consumption date never cleared or changed); the word
table never shrinks; and operations that do not invoke the selection engine
leave the existing rows exactly as they are, only appending new ones — so
the consumed flag transitions false→true only via the selection engine, and
(being Boolean and never reset) at most once. -/
theorem word_lifecycle_monotone (s : PoolState) (ops : List Op) (hWF : WF s) :
    (∀ x ∈ s.words, ∃ x' ∈ (applyOps ops s).words,
        x'.id = x.id ∧ x'.word = x.word ∧ (x.used = true → x' = x)) ∧
      s.words.length ≤ (applyOps ops s).words.length ∧
      ((∀ o ∈ ops, engineFree o = true) →
          ∃ t, (applyOps ops s).words = s.words ++ t) :=
  ⟨fun _ hx => word_preserved_applyOps ops hWF hx,
   words_length_applyOps ops s,
   fun h => words_shape_engineFree_ops s h⟩

/-- Witness for C5: a concrete engine-free ledger-write-plus-import run on
the scenario pool preserves the row "alpha" and only appends. -/
theorem word_lifecycle_monotone_witness :
    (∃ x' ∈ (applyOps demoOps alphaBetaPool).words,
        x'.id = alphaWord.id ∧ x'.word = alphaWord.word ∧
          (alphaWord.used = true → x' = alphaWord)) ∧
      ∃ t, (applyOps demoOps alphaBetaPool).words = alphaBetaPool.words ++ t :=
  ⟨(word_lifecycle_monotone alphaBetaPool demoOps (by decide)).1 alphaWord
      (by decide),
   (word_lifecycle_monotone alphaBetaPool demoOps (by decide)).2.2 (by decide)⟩

/-- C9: `/stats` reports, for the English pool, the total word count, the
consumed count (`SUM(used)` equals the number of consumed rows), the
available count `unused = total - used` (which equals the number of
available rows), and at most ten assignment history entries: they are drawn
from the ledger join, ordered by date descending, exactly `min 10 n` of
them, and any join row left out dates no later than every reported one. -/
theorem api_stats_spec (s : PoolState) :
    (apiStats s).total = s.words.length ∧
      (apiStats s).used = (s.words.filter (fun w => w.used)).length ∧
      (apiStats s).unused = (apiStats s).total - (apiStats s).used ∧
      (apiStats s).unused = countAvail s ∧
      (apiStats s).last10.length = min 10 (joinHistory s).length ∧
      List.Pairwise (fun a b : String × String => dateLeB b.1 a.1 = true)
        (apiStats s).last10 ∧
      (∀ p ∈ (apiStats s).last10, p ∈ joinHistory s) ∧
      ∀ p ∈ joinHistory s, p ∉ (apiStats s).last10 →
        ∀ q ∈ (apiStats s).last10, dateLeB p.1 q.1 = true := by
  refine ⟨rfl, sum_indicator_eq_filter_length s.words, rfl, ?_, ?_, ?_, ?_, ?_⟩
  · show s.words.length - (s.words.map (fun w => if w.used then 1 else 0)).sum =
      countAvail s
    rw [sum_indicator_eq_filter_length s.words]
    have h1 := filter_used_split s.words
    unfold countAvail
    omega
  · show ((sortByDateDesc (joinHistory s)).take 10).length = _
    rw [List.length_take, (sortByDateDesc_perm (joinHistory s)).length_eq]
  · exact List.Pairwise.sublist (List.take_sublist 10 _)
      (sortByDateDesc_sorted (joinHistory s))
  · intro p hp
    have hps : p ∈ sortByDateDesc (joinHistory s) := List.mem_of_mem_take hp
    exact (sortByDateDesc_perm (joinHistory s)).mem_iff.mp hps
  · intro p hp hnot q hq
    have hsp : p ∈ sortByDateDesc (joinHistory s) :=
      (sortByDateDesc_perm (joinHistory s)).mem_iff.mpr hp
    have hsplit := List.take_append_drop 10 (sortByDateDesc (joinHistory s))
    have hsp2 : p ∈ (sortByDateDesc (joinHistory s)).take 10 ++
        (sortByDateDesc (joinHistory s)).drop 10 := by
      rw [hsplit]
      exact hsp
    have hpd : p ∈ (sortByDateDesc (joinHistory s)).drop 10 := by
      rcases List.mem_append.mp hsp2 with h | h
      · exact absurd h hnot
      · exact h
    have hpw := sortByDateDesc_sorted (joinHistory s)
    rw [← hsplit] at hpw
    obtain ⟨-, -, hcross⟩ := List.pairwise_append.mp hpw
    exact hcross q hq p hpd

/-- Witness for C9: on a pool with eleven assignments, `/stats` keeps the
ten newest history rows; the dropped oldest row is in the join, is absent
from the report, and collates no later than a reported row. -/
theorem api_stats_spec_witness :
    (apiStats statsDemoPool).total = statsDemoPool.words.length ∧
      ("2024-01-01", "w01") ∈ joinHistory statsDemoPool ∧
      ("2024-01-01", "w01") ∉ (apiStats statsDemoPool).last10 ∧
      ("2024-01-05", "w05") ∈ (apiStats statsDemoPool).last10 ∧
      dateLeB ("2024-01-01", "w01").1 ("2024-01-05", "w05").1 = true :=
  ⟨(api_stats_spec statsDemoPool).1, by decide, by decide, by decide,
   (api_stats_spec statsDemoPool).2.2.2.2.2.2.2 ("2024-01-01", "w01")
     (by decide) (by decide) ("2024-01-05", "w05") (by decide)⟩

end DailyWord
